import Mathlib

/-!
Shallow embedding of the CSP itinerary scheduler in
src/backend/app/services/csp_scheduler.py, with proofs of its
behavioural properties.

Modelling conventions.  Python dictionaries preserve insertion order, so
they are modelled as association lists (List (key × value)) with
insertion at the tail; deleting the most recently inserted key and
reinserting restores the original order, which matches the del/re-add
pattern of the backtracking search.  Python range(n) is empty for n ≤ 0,
modelled by List.range n.toNat on an integer n.  The truthiness test
"if not result" treats both None and the empty dict as false; the model
keeps both cases explicit.  Machine integers are exact in Python, so Int
and Nat are used directly.
-/

/-- An activity record: a Python dict with an optional "category" entry
(value.get returns None when the key is absent, modelled by Option) and
arbitrary further fields.  Equality is full field equality, matching the
source, whose no-duplicate constraint compares records with ==. -/
structure Activity where
  category : Option String
  fields : List (String × String)
deriving DecidableEq

/-- A slot variable.  The source encodes it as the label built by the
f-string Day(d+1)_Slot(slot+1); day and slot determine the label and are
recovered from it by the source (split on the underscore for the day key,
strip the Slot text and call int for the slot number), so the variable is
represented by the pair of indices.  Both are 1-based. -/
structure Var where
  day : Nat
  slot : Nat
deriving DecidableEq

/-- One decimal digit character, for d < 10; models the digit characters
of the decimal rendering performed by a Python f-string on an int. -/
def decDigit (d : Nat) : Char :=
  match d with
  | 0 => '0' | 1 => '1' | 2 => '2' | 3 => '3' | 4 => '4'
  | 5 => '5' | 6 => '6' | 7 => '7' | 8 => '8' | _ => '9'

/-- Numeric value of a decimal digit character; inverse of decDigit. -/
def decVal (c : Char) : Nat :=
  match c with
  | '0' => 0 | '1' => 1 | '2' => 2 | '3' => 3 | '4' => 4
  | '5' => 5 | '6' => 6 | '7' => 7 | '8' => 8 | _ => 9

/-- Decimal digit list of n, most significant first, prepended to acc.
Structured with explicit fuel so that it is structurally recursive; any
fuel above n suffices (natDecimalCore_irrel). -/
def natDecimalCore : Nat → Nat → List Char → List Char
  | 0, _, acc => acc
  | fuel + 1, n, acc =>
    if n < 10 then decDigit n :: acc
    else natDecimalCore fuel (n / 10) (decDigit (n % 10) :: acc)

/-- Decimal digit list of n, most significant first. -/
def natDecimal (n : Nat) : List Char :=
  natDecimalCore (n + 1) n []

/-- Decimal rendering of a natural number, modelling the str() conversion
a Python f-string applies to an int. -/
def natToString (n : Nat) : String :=
  String.mk (natDecimal n)

theorem decVal_decDigit : ∀ d < 10, decVal (decDigit d) = d := by decide

theorem natDecimalCore_append (fuel : Nat) : ∀ n acc,
    natDecimalCore fuel n acc = natDecimalCore fuel n [] ++ acc := by
  induction fuel with
  | zero => intro n acc; simp [natDecimalCore]
  | succ fuel ih =>
    intro n acc
    by_cases h : n < 10
    · simp [natDecimalCore, h]
    · simp only [natDecimalCore, if_neg h]
      rw [ih (n / 10) (decDigit (n % 10) :: acc),
        ih (n / 10) (decDigit (n % 10) :: [])]
      simp

theorem natDecimalCore_irrel : ∀ f1 f2 n acc, n < f1 → n < f2 →
    natDecimalCore f1 n acc = natDecimalCore f2 n acc := by
  intro f1
  induction f1 with
  | zero => intro f2 n acc h1 _; omega
  | succ a ih =>
    intro f2 n acc h1 h2
    match f2, h2 with
    | b + 1, h2 =>
      by_cases h : n < 10
      · simp [natDecimalCore, h]
      · simp only [natDecimalCore, if_neg h]
        exact ih b (n / 10) _ (by omega) (by omega)

/-- Value of a decimal digit list (most significant first). -/
def decimalEval (l : List Char) : Nat :=
  l.foldl (fun a c => 10 * a + decVal c) 0

theorem decimalEval_append_digit (xs : List Char) (c : Char) :
    decimalEval (xs ++ [c]) = 10 * decimalEval xs + decVal c := by
  simp [decimalEval, List.foldl_append]

/-- Round trip: reading back the decimal rendering returns the number.
Hence the rendering is injective. -/
theorem decimalEval_natDecimal (n : Nat) : decimalEval (natDecimal n) = n := by
  induction n using Nat.strong_induction_on with
  | _ n ih =>
    by_cases h : n < 10
    · simp only [natDecimal, natDecimalCore, if_pos h]
      simpa [decimalEval] using decVal_decDigit n h
    · have hdiv : n / 10 < n := Nat.div_lt_self (by omega) (by omega)
      have step : natDecimal n = natDecimal (n / 10) ++ [decDigit (n % 10)] := by
        show natDecimalCore (n + 1) n [] = _
        rw [show n + 1 = n + 1 by rfl]
        simp only [natDecimalCore, if_neg h]
        rw [natDecimalCore_append n (n / 10) [decDigit (n % 10)]]
        rw [natDecimalCore_irrel n (n / 10 + 1) (n / 10) [] (by omega) (by omega)]
        rfl
      rw [step, decimalEval_append_digit, ih (n / 10) hdiv,
        decVal_decDigit (n % 10) (by omega)]
      omega

theorem natDecimal_injective : Function.Injective natDecimal := by
  intro m n h
  have := decimalEval_natDecimal m
  rw [h, decimalEval_natDecimal n] at this
  omega

theorem natToString_injective : Function.Injective natToString := by
  intro m n h
  exact natDecimal_injective (congrArg String.data h)

/-- The day key of a variable: the source computes var.split on the
underscore and takes the first component, which is the text Day followed
by the decimal day number. -/
def dayKey (d : Nat) : String :=
  "Day" ++ natToString d

theorem dayKey_injective : Function.Injective dayKey := by
  intro m n h
  apply natToString_injective
  have hd : ("Day" ++ natToString m).data = ("Day" ++ natToString n).data :=
    congrArg String.data h
  simp only [String.data_append] at hd
  exact String.ext (List.append_cancel_left hd)

theorem dayKey_ne_message (d : Nat) : dayKey d ≠ "message" := by
  intro h
  have hd : ("Day" ++ natToString d).data = ("message" : String).data :=
    congrArg String.data h
  simp only [String.data_append] at hd
  simp at hd

/-- The assignment dict of the CSP object, modelled as an association
list in insertion order (keys are never repeated along reachable
executions; deletion of the most recent key is modelled by reusing the
previous list). -/
abbrev Asg := List (Var × Activity)

/-- A constraint as in the source: a predicate of the current partial
assignment, the candidate variable and the candidate value. -/
abbrev Cst := Asg → Var → Activity → Bool

/-- Key-membership test in the assignment dict (v in self.assignment). -/
def isAssigned (asg : Asg) (v : Var) : Bool :=
  (asg.map Prod.fst).contains v

/-- The CSP object of the source: the variables list (the source field
name variables is a reserved word in Lean, hence vars), the domains dict
and the constraints list; the mutable assignment field is threaded
explicitly through the search functions. -/
structure CSP where
  vars : List Var
  domains : Var → List Activity
  constraints : List Cst

/-- CSP.is_consistent: every constraint accepts the candidate (the
source returns False at the first failing constraint; all is the
same). -/
def CSP.is_consistent (csp : CSP) (asg : Asg) (var : Var) (value : Activity) : Bool :=
  csp.constraints.all (fun c => c asg var value)

/-- The for-loop of CSP.backtrack over the domain values of var: try
each value in order; on a consistent value extend the assignment (dict
insertion at the tail) and continue through cont, the recursive
backtrack call; a falsy result (None, or the empty dict: if result)
deletes the tentative entry — modelled by reusing the unextended asg —
and moves on to the next value. -/
def tryValues (cont : Asg → Option Asg) (csp : CSP) (asg : Asg) (var : Var) :
    List Activity → Option Asg
  | [] => none
  | value :: rest =>
    if csp.is_consistent asg var value then
      match cont (asg ++ [(var, value)]) with
      | some r => if r.isEmpty then tryValues cont csp asg var rest else some r
      | none => tryValues cont csp asg var rest
    else
      tryValues cont csp asg var rest

/-- CSP.backtrack.  fuel bounds the recursion depth so the definition is
structurally recursive; Python recursion is unbounded, and any fuel
above the number of unassigned variables gives the Python semantics
(backtrack_fuel_irrel); generate_schedule supplies such a fuel.  When
every variable is assigned the assignment is returned; otherwise the
first variable not in the assignment (in list order) is selected.  Were
the filter empty while the length test failed, the source would raise an
IndexError on the [0] index; that state is unreachable from
generate_schedule, and the model returns none there. -/
def CSP.backtrack (csp : CSP) : Nat → Asg → Option Asg
  | 0, _ => none
  | fuel + 1, asg =>
    if asg.length = csp.vars.length then some asg
    else
      match csp.vars.filter (fun v => !(isAssigned asg v)) with
      | [] => none
      | var :: _ => tryValues (csp.backtrack fuel) csp asg var (csp.domains var)

/-- The constraints argument of generate_schedule: a Python dict from
which only the keys max_per_day and food_after_slot are read, each
through dict.get with a default.  Unrecognized keys are ignored by the
source and therefore omitted from the model.  Python ints are exact and
may be negative, hence Int. -/
structure ConstraintsDict where
  max_per_day : Option Int
  food_after_slot : Option Int
deriving DecidableEq

/-- The no_duplicate constraint of generate_schedule: the candidate
value must not already occur among the values of the assignment
(value not in assignment.values(), comparison by ==). -/
def no_duplicate (assignment : Asg) (_var : Var) (value : Activity) : Bool :=
  !((assignment.map Prod.snd).contains value)

/-- The food_after_slot constraint of generate_schedule: a value whose
category is the string food may only occupy a slot whose per-day 1-based
number is at least constraints.get("food_after_slot", 1).  The slot
number is the one the source recovers from the variable label
(int(var.split("_")[1].replace("Slot", ""))), i.e. the slot component of
the variable.  In Python None == "food" is False, so an absent category
passes the test. -/
def food_after_slot (constraints : ConstraintsDict) (_assignment : Asg) (var : Var)
    (value : Activity) : Bool :=
  if value.category == some "food" then
    decide (constraints.food_after_slot.getD 1 ≤ (var.slot : Int))
  else true

/-- The variables list built by generate_schedule: for each d below
num_days and each slot below max_per_day, the label Day(d+1)_Slot(slot+1)
in day-major, slot-minor order.  Python range is empty on a non-positive
argument, hence toNat on the Int bounds. -/
def mkVariables (num_days max_per_day : Int) : List Var :=
  (List.range num_days.toNat).flatMap (fun d =>
    (List.range max_per_day.toNat).map (fun slot => ⟨d + 1, slot + 1⟩))

/-- A value of the heterogeneous result dict of generate_schedule: the
no-solution dict maps the message key to a string, a schedule dict maps
each day key to a list of activities. -/
inductive Val where
  | msg : String → Val
  | acts : List Activity → Val
deriving DecidableEq

/-- The no-solution result dict of generate_schedule. -/
def noSolutionOutput : List (String × Val) :=
  [("message", Val.msg "No valid schedule found for given constraints")]

/-- One step of the result-formatting loop of generate_schedule: append
activity a to the list under day_key, creating the key at the tail when
absent (dict insertion order). -/
def addToDay (final : List (String × List Activity)) (day_key : String)
    (a : Activity) : List (String × List Activity) :=
  if (final.map Prod.fst).contains day_key then
    final.map (fun p => if p.1 = day_key then (p.1, p.2 ++ [a]) else p)
  else
    final ++ [(day_key, [a])]

/-- The result-formatting loop of generate_schedule: iterate the
complete assignment in insertion order and group the activities under
the day component of each variable label (var.split("_")[0]). -/
def formatDays (result : Asg) : List (String × List Activity) :=
  result.foldl (fun final p => addToDay final (dayKey p.1.day) p.2) []

/-- generate_schedule of the source.  Dates are modelled as day ordinals
(Int); (end_date - start_date).days is their difference.  The domains
dict maps every variable to activities.copy(), an equal list.  The
search runs with fuel variables.length + 1, which strictly exceeds the
number of unassigned variables of the empty assignment, so the fuel
never runs out (backtrack_fuel_irrel); the test "if not result" treats
None and the empty dict alike, both yielding the no-solution dict. -/
def generate_schedule (activities : List Activity) (start_date end_date : Int)
    (constraints : ConstraintsDict) : List (String × Val) :=
  let num_days : Int := end_date - start_date + 1
  let max_per_day : Int := constraints.max_per_day.getD 3
  let vars := mkVariables num_days max_per_day
  let domains : Var → List Activity := fun _ => activities
  let constraints_list : List Cst := [no_duplicate, food_after_slot constraints]
  let csp : CSP := ⟨vars, domains, constraints_list⟩
  match csp.backtrack (vars.length + 1) [] with
  | none => noSolutionOutput
  | some result =>
    if result.isEmpty then noSolutionOutput
    else (formatDays result).map (fun p => (p.1, Val.acts p.2))

/-! ### Fuel machinery: the fuel parameter of CSP.backtrack is semantically inert -/

/-- Number of variables not yet assigned; the recursion depth of the
source search is bounded by it. -/
def unassignedCount (vs : List Var) (asg : Asg) : Nat :=
  (vs.filter (fun v => !(isAssigned asg v))).length

theorem isAssigned_append (asg : Asg) (var : Var) (val : Activity) (v : Var) :
    isAssigned (asg ++ [(var, val)]) v = (isAssigned asg v || v == var) := by
  simp only [isAssigned, List.map_append, List.map_cons, List.map_nil,
    List.contains_eq_any_beq, List.any_append, List.any_cons, List.any_nil,
    Bool.or_false]


theorem filter_length_lt {α : Type} (p q : α → Bool)
    (himp : ∀ a, q a = true → p a = true) :
    ∀ (l : List α) (a0 : α), a0 ∈ l → p a0 = true → q a0 = false →
      (l.filter q).length < (l.filter p).length := by
  intro l
  induction l with
  | nil => intro a0 h; cases h
  | cons x rest ih =>
    intro a0 hmem hp hq
    have hmono : (rest.filter q).length ≤ (rest.filter p).length := by
      rw [← List.countP_eq_length_filter, ← List.countP_eq_length_filter]
      exact List.countP_mono_left (fun a _ h => himp a h)
    rcases List.mem_cons.mp hmem with h | h
    · subst h
      rw [List.filter_cons, List.filter_cons, hp, hq]
      simpa using Nat.lt_succ_of_le hmono
    · have hlt := ih a0 h hp hq
      rw [List.filter_cons, List.filter_cons]
      by_cases hqx : q x = true
      · rw [hqx, himp x hqx]
        simpa using hlt
      · rw [Bool.not_eq_true] at hqx
        rw [hqx]
        by_cases hpx : p x = true
        · rw [hpx]
          simp only [Bool.false_eq_true, if_false, if_true, List.length_cons]
          omega
        · rw [Bool.not_eq_true] at hpx
          rw [hpx]
          simpa using hlt

theorem unassignedCount_append_lt (vs : List Var) (asg : Asg) (var : Var)
    (val : Activity) (hmem : var ∈ vs) (hun : isAssigned asg var = false) :
    unassignedCount vs (asg ++ [(var, val)]) < unassignedCount vs asg := by
  apply filter_length_lt _ _ _ vs var hmem
  · simp [hun]
  · simp [isAssigned_append, hun]
  · intro a ha
    rw [isAssigned_append] at ha
    simp only [Bool.not_or, Bool.and_eq_true] at ha
    exact ha.1

theorem tryValues_congr (cont1 cont2 : Asg → Option Asg) (csp : CSP) (asg : Asg)
    (var : Var)
    (h : ∀ value, cont1 (asg ++ [(var, value)]) = cont2 (asg ++ [(var, value)])) :
    ∀ values, tryValues cont1 csp asg var values = tryValues cont2 csp asg var values := by
  intro values
  induction values with
  | nil => rfl
  | cons value rest ih =>
    simp only [tryValues]
    by_cases hc : csp.is_consistent asg var value
    · rw [if_pos hc, if_pos hc, h value]
      cases cont2 (asg ++ [(var, value)]) with
      | none => exact ih
      | some r =>
        dsimp only
        by_cases hr : r.isEmpty
        · rw [if_pos hr, if_pos hr]
          exact ih
        · rw [if_neg hr, if_neg hr]
    · rw [if_neg hc, if_neg hc]
      exact ih

/-- The fuel of CSP.backtrack is inert: any two fuels above the number of
unassigned variables give the same result, so the fuelled model computes
the function the unbounded Python recursion computes. -/
theorem backtrack_fuel_irrel (csp : CSP) : ∀ f1 f2 asg,
    unassignedCount csp.vars asg < f1 → unassignedCount csp.vars asg < f2 →
    csp.backtrack f1 asg = csp.backtrack f2 asg := by
  intro f1
  induction f1 with
  | zero => intro f2 asg h1 _; omega
  | succ a ih =>
    intro f2 asg h1 h2
    match f2, h2 with
    | b + 1, h2 =>
      simp only [CSP.backtrack]
      by_cases hlen : asg.length = csp.vars.length
      · rw [if_pos hlen, if_pos hlen]
      · rw [if_neg hlen, if_neg hlen]
        match hfil : csp.vars.filter (fun v => !(isAssigned asg v)) with
        | [] => rfl
        | var :: tl =>
          apply tryValues_congr
          intro value
          have hvar : var ∈ csp.vars.filter (fun v => !(isAssigned asg v)) := by
            rw [hfil]; exact List.mem_cons_self var tl
          have hmem : var ∈ csp.vars := (List.mem_filter.mp hvar).1
          have hun : isAssigned asg var = false := by
            have := (List.mem_filter.mp hvar).2
            simpa using this
          have hlt := unassignedCount_append_lt csp.vars asg var value hmem hun
          exact ih b (asg ++ [(var, value)]) (by omega) (by omega)

/-- Generic soundness of the value loop: any result it returns comes
from the continuation on a consistently extended assignment. -/
theorem tryValues_sound (cont : Asg → Option Asg) (csp : CSP) (asg : Asg) (var : Var)
    (Q : Asg → Prop)
    (hcont : ∀ value r, csp.is_consistent asg var value = true →
      cont (asg ++ [(var, value)]) = some r → Q r) :
    ∀ values r, tryValues cont csp asg var values = some r → Q r := by
  intro values
  induction values with
  | nil => intro r h; simp [tryValues] at h
  | cons value rest ih =>
    intro r h
    simp only [tryValues] at h
    by_cases hc : csp.is_consistent asg var value
    · rw [if_pos hc] at h
      cases hcall : cont (asg ++ [(var, value)]) with
      | none => simp only [hcall] at h; exact ih r h
      | some r0 =>
        simp only [hcall] at h
        by_cases hr : r0.isEmpty
        · rw [if_pos hr] at h; exact ih r h
        · rw [if_neg hr] at h
          cases h
          exact hcont value _ hc hcall
    · rw [if_neg hc] at h
      exact ih r h

/-- Soundness of the backtracking search: whenever it returns an
assignment, that assignment is complete (as many entries as variables),
and any invariant P that holds initially and is preserved by consistent
extension with a variable chosen by the search holds of the result. -/
theorem backtrack_sound (csp : CSP) (P : Asg → Prop)
    (hstep : ∀ asg var tl value,
      csp.vars.filter (fun v => !(isAssigned asg v)) = var :: tl →
      csp.is_consistent asg var value = true →
      P asg → P (asg ++ [(var, value)])) :
    ∀ fuel asg r, P asg → csp.backtrack fuel asg = some r →
      P r ∧ r.length = csp.vars.length := by
  intro fuel
  induction fuel with
  | zero => intro asg r _ h; simp [CSP.backtrack] at h
  | succ fuel ih =>
    intro asg r hP h
    simp only [CSP.backtrack] at h
    by_cases hlen : asg.length = csp.vars.length
    · rw [if_pos hlen] at h
      cases h
      exact ⟨hP, hlen⟩
    · rw [if_neg hlen] at h
      match hfil : csp.vars.filter (fun v => !(isAssigned asg v)), h with
      | [], h => simp at h
      | var :: tl, h =>
        dsimp only at h
        apply tryValues_sound (csp.backtrack fuel) csp asg var
          (fun r => P r ∧ r.length = csp.vars.length) ?_ (csp.domains var) r h
        intro value r0 hc hcall
        exact ih (asg ++ [(var, value)]) r0 (hstep asg var tl value hfil hc hP) hcall

/-! ### The invariant established by the search generate_schedule runs -/

theorem isAssigned_iff (asg : Asg) (v : Var) :
    isAssigned asg v = true ↔ v ∈ asg.map Prod.fst := by
  simp [isAssigned, List.contains_eq_any_beq]

theorem no_duplicate_iff (asg : Asg) (var : Var) (value : Activity) :
    no_duplicate asg var value = true ↔ value ∉ asg.map Prod.snd := by
  simp [no_duplicate, List.contains_eq_any_beq]

theorem food_after_slot_spec (c : ConstraintsDict) (asg : Asg) (var : Var)
    (value : Activity) (h : food_after_slot c asg var value = true)
    (hcat : value.category = some "food") :
    c.food_after_slot.getD 1 ≤ (var.slot : Int) := by
  rw [food_after_slot, hcat] at h
  simpa using h

theorem filter_unassigned_eq_drop (vs : List Var) (asg : Asg) (hnd : vs.Nodup)
    (hkeys : asg.map Prod.fst = vs.take asg.length) :
    vs.filter (fun v => !(isAssigned asg v)) = vs.drop asg.length := by
  have hnd2 : (vs.take asg.length ++ vs.drop asg.length).Nodup := by
    rw [List.take_append_drop]; exact hnd
  have hdisj := (List.nodup_append.mp hnd2).2.2
  conv_lhs => rw [← List.take_append_drop asg.length vs]
  rw [List.filter_append]
  have h1 : (vs.take asg.length).filter (fun v => !(isAssigned asg v)) = [] := by
    rw [List.filter_eq_nil_iff]
    intro v hv
    have hmem : v ∈ asg.map Prod.fst := by rw [hkeys]; exact hv
    simp [(isAssigned_iff asg v).mpr hmem]
  have h2 : (vs.drop asg.length).filter (fun v => !(isAssigned asg v)) =
      vs.drop asg.length := by
    rw [List.filter_eq_self]
    intro v hv
    have hnmem : v ∉ asg.map Prod.fst := by
      rw [hkeys]; exact fun hc => hdisj hc hv
    simp only [Bool.not_eq_true']
    rw [← Bool.not_eq_true]
    exact fun hc => hnmem ((isAssigned_iff asg v).mp hc)
  rw [h1, h2, List.nil_append]

/-- Invariant of the search as generate_schedule runs it over variable
list vs and configuration c: the assignment keys are exactly the first
asg.length variables in generation order (a consequence of first-
unassigned selection and tail insertion), the assigned values are
pairwise distinct, and every assigned food activity sits at a slot with
per-day number at least the configured bound. -/
def SchedP (vs : List Var) (c : ConstraintsDict) (asg : Asg) : Prop :=
  asg.map Prod.fst = vs.take asg.length ∧
  (asg.map Prod.snd).Nodup ∧
  ∀ p ∈ asg, p.2.category = some "food" → c.food_after_slot.getD 1 ≤ (p.1.slot : Int)

theorem SchedP_nil (vs : List Var) (c : ConstraintsDict) : SchedP vs c [] := by
  simp [SchedP]

theorem SchedP_step (vs : List Var) (doms : Var → List Activity) (c : ConstraintsDict)
    (hnd : vs.Nodup) :
    ∀ (asg : Asg) (var : Var) (tl : List Var) (value : Activity),
      vs.filter (fun v => !(isAssigned asg v)) = var :: tl →
      CSP.is_consistent ⟨vs, doms, [no_duplicate, food_after_slot c]⟩ asg var value = true →
      SchedP vs c asg → SchedP vs c (asg ++ [(var, value)]) := by
  intro asg var tl value hfil hcons hP
  obtain ⟨hkeys, hnodup, hfood⟩ := hP
  have hcons2 : no_duplicate asg var value = true ∧
      food_after_slot c asg var value = true := by
    simpa [CSP.is_consistent] using hcons
  have hdrop : vs.drop asg.length = var :: tl := by
    rw [← filter_unassigned_eq_drop vs asg hnd hkeys]; exact hfil
  have hget : vs[asg.length]? = some var := by
    rw [← List.head?_drop, hdrop]; rfl
  refine ⟨?_, ?_, ?_⟩
  · rw [List.map_append, List.length_append]
    simp only [List.map_cons, List.map_nil, List.length_cons, List.length_nil]
    rw [List.take_succ, hget, hkeys]
    rfl
  · rw [List.map_append]
    simp only [List.map_cons, List.map_nil]
    rw [List.nodup_append]
    refine ⟨hnodup, List.nodup_singleton value, ?_⟩
    intro a ha hb
    have hval : a = value := by simpa using hb
    exact (no_duplicate_iff asg var value).mp hcons2.1 (hval ▸ ha)
  · intro p hp hcat
    rcases List.mem_append.mp hp with h | h
    · exact hfood p h hcat
    · have hpv : p = (var, value) := by simpa using h
      subst hpv
      exact food_after_slot_spec c asg var value hcons2.2 hcat

/-- The 0-based day and slot index pairs underlying the variables list,
in generation order (day-major, slot-minor). -/
def dayslotPairs (D m : Nat) : List (Nat × Nat) :=
  (List.range D).flatMap (fun d => (List.range m).map (fun s => (d, s)))

theorem dayslotPairs_nodup (D m : Nat) : (dayslotPairs D m).Nodup := by
  rw [dayslotPairs, List.nodup_flatMap]
  constructor
  · intro d _
    exact (List.nodup_range m).map (fun s1 s2 h => by simpa using h)
  · apply List.Pairwise.imp ?_ (List.nodup_range D)
    intro d1 d2 hne p hp1 hp2
    have h1 : p.1 = d1 := by
      rcases List.mem_map.mp hp1 with ⟨s, _, rfl⟩; rfl
    have h2 : p.1 = d2 := by
      rcases List.mem_map.mp hp2 with ⟨s, _, rfl⟩; rfl
    exact hne (h1 ▸ h2)

theorem mkVariables_eq_map (num_days max_per_day : Int) :
    mkVariables num_days max_per_day =
      (dayslotPairs num_days.toNat max_per_day.toNat).map
        (fun p => ⟨p.1 + 1, p.2 + 1⟩) := by
  rw [mkVariables, dayslotPairs, List.map_flatMap]
  congr 1
  funext d
  rw [List.map_map]
  rfl

theorem mkVariables_nodup (num_days max_per_day : Int) :
    (mkVariables num_days max_per_day).Nodup := by
  rw [mkVariables_eq_map]
  apply List.Nodup.map ?_ (dayslotPairs_nodup _ _)
  intro p q h
  simp only [Var.mk.injEq] at h
  exact Prod.ext (by omega) (by omega)

/-- The CSP instance generate_schedule builds from its inputs. -/
def schedCSP (activities : List Activity) (start_date end_date : Int)
    (constraints : ConstraintsDict) : CSP :=
  ⟨mkVariables (end_date - start_date + 1) (constraints.max_per_day.getD 3),
    fun _ => activities, [no_duplicate, food_after_slot constraints]⟩

theorem generate_schedule_def (activities : List Activity) (s e : Int)
    (c : ConstraintsDict) :
    generate_schedule activities s e c =
      match (schedCSP activities s e c).backtrack
          ((schedCSP activities s e c).vars.length + 1) [] with
      | none => noSolutionOutput
      | some result =>
        if result.isEmpty then noSolutionOutput
        else (formatDays result).map (fun p => (p.1, Val.acts p.2)) := rfl

/-- Case analysis of generate_schedule: either the no-solution dict, or
the formatting of a complete assignment that satisfies the search
invariant. -/
theorem generate_schedule_cases (activities : List Activity) (s e : Int)
    (c : ConstraintsDict) :
    generate_schedule activities s e c = noSolutionOutput ∨
    ∃ r : Asg, r ≠ [] ∧
      generate_schedule activities s e c =
        (formatDays r).map (fun p => (p.1, Val.acts p.2)) ∧
      r.map Prod.fst = mkVariables (e - s + 1) (c.max_per_day.getD 3) ∧
      (r.map Prod.snd).Nodup ∧
      ∀ p ∈ r, p.2.category = some "food" →
        c.food_after_slot.getD 1 ≤ (p.1.slot : Int) := by
  rw [generate_schedule_def]
  cases hbt : (schedCSP activities s e c).backtrack
      ((schedCSP activities s e c).vars.length + 1) [] with
  | none => left; rfl
  | some r =>
    by_cases hr : r.isEmpty
    · left
      dsimp only
      rw [if_pos hr]
    · right
      have hsound := backtrack_sound (schedCSP activities s e c)
        (SchedP (schedCSP activities s e c).vars c)
        (SchedP_step _ _ c (mkVariables_nodup _ _)) _ [] r (SchedP_nil _ c) hbt
      obtain ⟨⟨hkeys, hnodup, hfood⟩, hlen⟩ := hsound
      refine ⟨r, by simpa [List.isEmpty_iff] using hr, ?_, ?_, hnodup, hfood⟩
      · dsimp only
        rw [if_neg hr]
      · rw [hkeys, hlen]
        exact List.take_length _

/-- An association list whose key sequence is the image of a duplicate-
free list is pointwise given by a value function over that list. -/
theorem exists_fun_of_map_fst_eq {α : Type} [DecidableEq α] (f : α → Var) :
    ∀ (sl : List α) (r : Asg), sl.Nodup → r.map Prod.fst = sl.map f →
      ∃ g : α → Activity, r = sl.map (fun s => (f s, g s)) := by
  intro sl
  induction sl with
  | nil =>
    intro r _ h
    simp only [List.map_nil, List.map_eq_nil_iff] at h
    exact ⟨fun _ => ⟨none, []⟩, by simp [h]⟩
  | cons s rest ih =>
    intro r hnd h
    match r with
    | [] => simp at h
    | (v, a) :: r0 =>
      simp only [List.map_cons, List.cons.injEq] at h
      obtain ⟨hv, hr0⟩ := h
      obtain ⟨g0, hg0⟩ := ih r0 (List.Nodup.of_cons hnd) hr0
      refine ⟨fun x => if x = s then a else g0 x, ?_⟩
      have htail : rest.map (fun x => (f x, if x = s then a else g0 x)) =
          rest.map (fun x => (f x, g0 x)) := by
        apply List.map_congr_left
        intro x hx
        have hxs : x ≠ s := by
          intro hh
          exact (List.nodup_cons.mp hnd).1 (hh ▸ hx)
        rw [if_neg hxs]
      rw [List.map_cons]
      dsimp only
      rw [if_pos rfl, htail, ← hg0, hv]

/-- A complete assignment over the generated variables decomposes into a
value function of 0-based day and slot indices, in generation order. -/
theorem exists_g_of_keys (r : Asg) (nd mp : Int)
    (hkeys : r.map Prod.fst = mkVariables nd mp) :
    ∃ g : Nat → Nat → Activity,
      r = (List.range nd.toNat).flatMap (fun d =>
        (List.range mp.toNat).map (fun sl => (⟨d + 1, sl + 1⟩, g d sl))) := by
  rw [mkVariables_eq_map] at hkeys
  obtain ⟨g0, hg0⟩ := exists_fun_of_map_fst_eq (fun p => ⟨p.1 + 1, p.2 + 1⟩)
    (dayslotPairs nd.toNat mp.toNat) r (dayslotPairs_nodup _ _) hkeys
  refine ⟨fun d sl => g0 (d, sl), ?_⟩
  rw [hg0, dayslotPairs, List.map_flatMap]
  congr 1
  funext d
  rw [List.map_map]
  rfl

/-- Processing further entries of the day already keyed at the tail of
the accumulator appends their activities to that day, in order. -/
theorem foldl_addToDay_same_day (dk : String) :
    ∀ (entries : Asg) (final : List (String × List Activity)) (l : List Activity),
      (∀ p ∈ entries, dayKey p.1.day = dk) → dk ∉ final.map Prod.fst →
      (entries.foldl (fun fin p => addToDay fin (dayKey p.1.day) p.2)
          (final ++ [(dk, l)])) =
        final ++ [(dk, l ++ entries.map Prod.snd)] := by
  intro entries
  induction entries with
  | nil => intro final l _ _; simp
  | cons p rest ih =>
    intro final l hall hnot
    rw [List.foldl_cons]
    have hpd : dayKey p.1.day = dk := hall p (List.mem_cons_self p rest)
    rw [hpd]
    have hstep : addToDay (final ++ [(dk, l)]) dk p.2 =
        final ++ [(dk, l ++ [p.2])] := by
      rw [addToDay]
      have hc : ((final ++ [(dk, l)]).map Prod.fst).contains dk = true := by
        simp [List.contains_eq_any_beq]
      rw [if_pos hc, List.map_append]
      have h1 : final.map (fun q => if q.1 = dk then (q.1, q.2 ++ [p.2]) else q)
          = final := by
        have hq : ∀ q ∈ final,
            (if q.1 = dk then (q.1, q.2 ++ [p.2]) else q) = q := by
          intro q hq
          rw [if_neg]
          intro hh
          exact hnot (hh ▸ List.mem_map_of_mem Prod.fst hq)
        calc final.map (fun q => if q.1 = dk then (q.1, q.2 ++ [p.2]) else q)
            = final.map id := List.map_congr_left hq
          _ = final := List.map_id final
      rw [h1]
      simp
    rw [hstep]
    rw [ih final (l ++ [p.2]) (fun q hq => hall q (List.mem_cons_of_mem p hq)) hnot]
    simp

/-- Processing the entries of a day absent from the accumulator creates
that day at the tail, holding exactly its activities in order. -/
theorem foldl_addToDay_new_day (dk : String) (entries : Asg)
    (final : List (String × List Activity)) (hne : entries ≠ [])
    (hall : ∀ p ∈ entries, dayKey p.1.day = dk)
    (hnot : dk ∉ final.map Prod.fst) :
    entries.foldl (fun fin p => addToDay fin (dayKey p.1.day) p.2) final =
      final ++ [(dk, entries.map Prod.snd)] := by
  match entries, hne with
  | p :: rest, _ =>
    rw [List.foldl_cons]
    have hpd : dayKey p.1.day = dk := hall p (List.mem_cons_self p rest)
    rw [hpd]
    have hstep : addToDay final dk p.2 = final ++ [(dk, [p.2])] := by
      rw [addToDay]
      rw [if_neg]
      simp only [List.contains_eq_any_beq, List.any_eq_true, beq_iff_eq,
        Bool.not_eq_true]
      rintro ⟨x, hx, rfl⟩
      exact hnot hx
    rw [hstep]
    rw [foldl_addToDay_same_day dk rest final [p.2]
      (fun q hq => hall q (List.mem_cons_of_mem p hq)) hnot]
    simp

/-- Folding the formatting step over day-blocked entries produces one
day entry per day, in day order. -/
theorem foldl_addToDay_flatMap (m : Nat) (hm : 0 < m) (g : Nat → Nat → Activity) :
    ∀ (ds : List Nat) (final : List (String × List Activity)),
      (∀ d ∈ ds, dayKey (d + 1) ∉ final.map Prod.fst) →
      ((ds.map (fun d => dayKey (d + 1))).Nodup) →
      ((ds.flatMap (fun d =>
          (List.range m).map (fun sl => ((⟨d + 1, sl + 1⟩ : Var), g d sl)))).foldl
          (fun fin p => addToDay fin (dayKey p.1.day) p.2) final) =
        final ++ ds.map (fun d => (dayKey (d + 1), (List.range m).map (g d))) := by
  intro ds
  induction ds with
  | nil => intro final _ _; simp
  | cons d rest ih =>
    intro final hfresh hnd
    rw [List.flatMap_cons, List.foldl_append]
    rw [foldl_addToDay_new_day (dayKey (d + 1))
      ((List.range m).map (fun sl => ((⟨d + 1, sl + 1⟩ : Var), g d sl))) final
      (by simp [List.range_eq_nil]; omega)
      (by
        intro p hp
        rcases List.mem_map.mp hp with ⟨sl, _, rfl⟩
        rfl)
      (hfresh d (List.mem_cons_self d rest))]
    have hsnd : ((List.range m).map (fun sl => ((⟨d + 1, sl + 1⟩ : Var), g d sl))).map
        Prod.snd = (List.range m).map (g d) := by
      rw [List.map_map]; rfl
    rw [hsnd]
    rw [ih (final ++ [(dayKey (d + 1), (List.range m).map (g d))]) ?_ ?_]
    · simp
    · intro d2 hd2
      rw [List.map_append]
      simp only [List.map_cons, List.map_nil, List.mem_append,
        List.mem_singleton, not_or]
      constructor
      · exact hfresh d2 (List.mem_cons_of_mem d hd2)
      · intro hkey
        have hmem : dayKey (d + 1) ∈ rest.map (fun x => dayKey (x + 1)) :=
          hkey ▸ List.mem_map_of_mem (fun x => dayKey (x + 1)) hd2
        rw [List.map_cons] at hnd
        exact (List.nodup_cons.mp hnd).1 hmem
    · rw [List.map_cons] at hnd
      exact (List.nodup_cons.mp hnd).2

/-- formatDays on a complete assignment in generation order: one key per
day, Day1..DayD in order, the slot activities of each day in ascending
slot order. -/
theorem formatDays_flatMap (D m : Nat) (hm : 0 < m) (g : Nat → Nat → Activity) :
    formatDays ((List.range D).flatMap (fun d =>
        (List.range m).map (fun sl => ((⟨d + 1, sl + 1⟩ : Var), g d sl)))) =
      (List.range D).map (fun d => (dayKey (d + 1), (List.range m).map (g d))) := by
  rw [formatDays]
  rw [foldl_addToDay_flatMap m hm g (List.range D) [] (by simp) ?_]
  · rw [List.nil_append]
  · apply List.Nodup.map ?_ (List.nodup_range D)
    intro a b h
    have := dayKey_injective h
    omega

/-- Shape of every produced schedule: either the no-solution dict, or a
dict with keys Day1..DayD in order (D the day count), each day listing
exactly m activities in ascending slot order through a value function g
of 0-based day and slot indices, with no duplicate activity overall and
the food rule satisfied at every slot. -/
theorem generate_schedule_form (activities : List Activity) (s e : Int)
    (c : ConstraintsDict) :
    generate_schedule activities s e c = noSolutionOutput ∨
    ∃ g : Nat → Nat → Activity, ∃ D m : Nat,
      D = (e - s + 1).toNat ∧ m = (c.max_per_day.getD 3).toNat ∧
      0 < D ∧ 0 < m ∧
      generate_schedule activities s e c =
        (List.range D).map (fun d =>
          (dayKey (d + 1), Val.acts ((List.range m).map (g d)))) ∧
      ((List.range D).flatMap (fun d => (List.range m).map (g d))).Nodup ∧
      (∀ d sl, d < D → sl < m → (g d sl).category = some "food" →
        c.food_after_slot.getD 1 ≤ (sl + 1 : Int)) := by
  rcases generate_schedule_cases activities s e c with h | h
  · exact Or.inl h
  · right
    obtain ⟨r, hne, hout, hkeys, hnodup, hfood⟩ := h
    obtain ⟨g, hg⟩ := exists_g_of_keys r (e - s + 1) (c.max_per_day.getD 3) hkeys
    refine ⟨g, (e - s + 1).toNat, (c.max_per_day.getD 3).toNat, rfl, rfl, ?_, ?_, ?_, ?_, ?_⟩
    · by_contra hD
      apply hne
      rw [hg]
      have : (e - s + 1).toNat = 0 := by omega
      rw [this]
      rfl
    · by_contra hm
      apply hne
      rw [hg]
      have : (c.max_per_day.getD 3).toNat = 0 := by omega
      rw [this]
      simp
    · rw [hout, hg]
      have hm : 0 < (c.max_per_day.getD 3).toNat := by
        by_contra hm
        apply hne
        rw [hg]
        have : (c.max_per_day.getD 3).toNat = 0 := by omega
        rw [this]
        simp
      rw [formatDays_flatMap _ _ hm g, List.map_map]
      rfl
    · have hsnd : r.map Prod.snd = (List.range (e - s + 1).toNat).flatMap
          (fun d => (List.range (c.max_per_day.getD 3).toNat).map (g d)) := by
        rw [hg, List.map_flatMap]
        congr 1
        funext d
        rw [List.map_map]
        rfl
      rw [← hsnd]
      exact hnodup
    · intro d sl hd hsl hcat
      have hmem : ((⟨d + 1, sl + 1⟩ : Var), g d sl) ∈ r := by
        rw [hg]
        exact List.mem_flatMap.mpr ⟨d, List.mem_range.mpr hd,
          List.mem_map.mpr ⟨sl, List.mem_range.mpr hsl, rfl⟩⟩
      have := hfood _ hmem hcat
      simp only at this
      push_cast at this ⊢
      omega

/-- The activity list under one output dict value (empty for the message
value); used to state properties of produced schedules. -/
def Val.activityList : Val → List Activity
  | Val.msg _ => []
  | Val.acts l => l

/-- Value a dict-modelling association list assigns to a variable: the
first entry with that key. -/
def lookupVar (r : Asg) (v : Var) : Option Activity :=
  (r.find? (fun p => p.1 == v)).map Prod.snd

theorem lookupVar_eq_of_mem : ∀ (r : Asg) (v : Var) (a : Activity),
    (r.map Prod.fst).Nodup → (v, a) ∈ r → lookupVar r v = some a := by
  intro r
  induction r with
  | nil => intro v a _ hmem; cases hmem
  | cons p rest ih =>
    intro v a hnd hmem
    rcases List.mem_cons.mp hmem with h | h
    · rw [lookupVar, List.find?_cons_of_pos]
      · rw [← h]
        rfl
      · rw [← h]
        exact beq_self_eq_true v
    · have hkey : v ∈ rest.map Prod.fst := by
        have : Prod.fst (v, a) ∈ rest.map Prod.fst := List.mem_map_of_mem Prod.fst h
        simpa using this
      have hne : p.1 ≠ v := by
        rw [List.map_cons, List.nodup_cons] at hnd
        intro hh
        exact hnd.1 (hh ▸ hkey)
      rw [lookupVar, List.find?_cons_of_neg]
      · exact ih v a (by rw [List.map_cons, List.nodup_cons] at hnd; exact hnd.2) h
      · simp [hne]

/-! ### Concrete activity records used in concrete evaluations -/

def actMuseum : Activity := ⟨some "sight", [("name", "Museum")]⟩

def actLunch : Activity := ⟨some "food", [("name", "Lunch")]⟩

def actPark : Activity := ⟨some "sight", [("name", "Park")]⟩

/-! ### Claims -/

/-- Claim C1.  The claim asks for an explicit input-validation error when
end_date is strictly before start_date.  The code has no validation: the
day range is empty, the search trivially returns the empty assignment,
and the falsiness test turns that into the ordinary no-solution dict —
the very same value an infeasible search returns (second conjunct),
so nothing distinguishes the malformed range from ordinary
infeasibility.  This theorem documents the divergence at the failing
input. -/
theorem c1_end_before_start_silently_no_solution :
    generate_schedule [actMuseum] 5 3 ⟨none, none⟩ = noSolutionOutput ∧
    generate_schedule [actMuseum] 5 3 ⟨none, none⟩ =
      generate_schedule [actMuseum] 0 1 ⟨none, none⟩ :=
  ⟨by decide, by decide⟩

/-- Claim C2.  The claim asks for a synchronous input-validation error on
a non-positive max_per_day or food_after_slot.  The code reports none:
max_per_day = 0 yields the ordinary no-solution dict (first conjunct),
and food_after_slot = 0 is silently accepted — search proceeds and
returns a schedule placing a food activity at slot 1 (second conjunct).
This theorem documents the divergence at the failing inputs. -/
theorem c2_nonpositive_config_silently_accepted :
    generate_schedule [actMuseum] 0 0 ⟨some 0, none⟩ = noSolutionOutput ∧
    generate_schedule [actLunch] 0 0 ⟨some 1, some 0⟩ =
      [(dayKey 1, Val.acts [actLunch])] :=
  ⟨by decide, by decide⟩

/-- Claim C6: generate_schedule is deterministic — two invocations with
identical inputs (activities in the same order, same dates, same
configuration) return identical results.  The embedding is a pure
function of its inputs, mirroring the source, whose search and
formatting depend only on the inputs through fixed iteration orders. -/
theorem c6_deterministic (a1 a2 : List Activity) (s1 s2 e1 e2 : Int)
    (c1 c2 : ConstraintsDict) (ha : a1 = a2) (hs : s1 = s2) (he : e1 = e2)
    (hc : c1 = c2) :
    generate_schedule a1 s1 e1 c1 = generate_schedule a2 s2 e2 c2 := by
  rw [ha, hs, he, hc]

/-- Witness for C6 at a concrete input. -/
theorem c6_deterministic_witness :
    [actMuseum, actLunch] = [actMuseum, actLunch] ∧
    generate_schedule [actMuseum, actLunch] 0 0 ⟨some 2, none⟩ =
      generate_schedule [actMuseum, actLunch] 0 0 ⟨some 2, none⟩ :=
  ⟨rfl, c6_deterministic [actMuseum, actLunch] [actMuseum, actLunch] 0 0 0 0
    ⟨some 2, none⟩ ⟨some 2, none⟩ rfl rfl rfl rfl⟩

/-- Claim C9: the backtracking search always returns — with a complete
assignment (as many entries as variables) or with the search space
exhausted (none) — over any finite activity list and variable list; the
space of candidate complete assignments is finite, of cardinality
activities ^ variables. -/
theorem c9_search_terminates (activities : List Activity) (vs : List Var)
    (c : ConstraintsDict) (fuel : Nat) (asg : Asg) :
    (CSP.backtrack ⟨vs, fun _ => activities, [no_duplicate, food_after_slot c]⟩
        fuel asg = none ∨
      ∃ r, CSP.backtrack ⟨vs, fun _ => activities, [no_duplicate, food_after_slot c]⟩
          fuel asg = some r ∧ r.length = vs.length) ∧
    Fintype.card (Fin vs.length → Fin activities.length) =
      activities.length ^ vs.length := by
  constructor
  · cases hbt : CSP.backtrack ⟨vs, fun _ => activities,
        [no_duplicate, food_after_slot c]⟩ fuel asg with
    | none => exact Or.inl rfl
    | some r =>
      exact Or.inr ⟨r, rfl, (backtrack_sound _ (fun _ => True)
        (fun _ _ _ _ _ _ _ => trivial) fuel asg r trivial hbt).2⟩
  · rw [Fintype.card_pi_const, Fintype.card_fin]

/-- Claim C10: when the formulation yields no slot variable (an inverted
date range or a non-positive max_per_day), the search returns the empty
assignment, which the falsiness test conflates with failure, so the call
returns the no-solution message dict rather than an empty schedule or an
error. -/
theorem c10_zero_variables_no_solution_message (activities : List Activity)
    (s e : Int) (c : ConstraintsDict)
    (hz : e - s + 1 ≤ 0 ∨ c.max_per_day.getD 3 ≤ 0) :
    mkVariables (e - s + 1) (c.max_per_day.getD 3) = [] ∧
    (schedCSP activities s e c).backtrack
      ((schedCSP activities s e c).vars.length + 1) [] = some [] ∧
    generate_schedule activities s e c = noSolutionOutput := by
  have hvs : mkVariables (e - s + 1) (c.max_per_day.getD 3) = [] := by
    rcases hz with h | h
    · rw [mkVariables]
      have h0 : (e - s + 1).toNat = 0 := by omega
      rw [h0]
      rfl
    · rw [mkVariables]
      have h0 : (c.max_per_day.getD 3).toNat = 0 := by omega
      rw [h0]
      simp
  have hv : (schedCSP activities s e c).vars = [] := hvs
  have hb : (schedCSP activities s e c).backtrack
      ((schedCSP activities s e c).vars.length + 1) [] = some [] := by
    rw [hv]
    simp [CSP.backtrack, hv]
  refine ⟨hvs, hb, ?_⟩
  rw [generate_schedule_def, hb]
  rfl

/-- Witness for C10 at a concrete input with the end date before the
start date. -/
theorem c10_zero_variables_witness :
    ((3 : Int) - 5 + 1 ≤ 0 ∨ (ConstraintsDict.mk none none).max_per_day.getD 3 ≤ 0) ∧
    generate_schedule [actMuseum] 5 3 ⟨none, none⟩ = noSolutionOutput :=
  ⟨Or.inl (by decide),
    (c10_zero_variables_no_solution_message [actMuseum] 5 3 ⟨none, none⟩
      (Or.inl (by decide))).2.2⟩

/-- Claim C3: in every produced schedule no activity value (compared by
full field equality) appears in more than one slot across the entire
output — the concatenation of all day lists holds pairwise distinct
activities. -/
theorem c3_no_duplicate_activities (activities : List Activity) (s e : Int)
    (c : ConstraintsDict)
    (hns : generate_schedule activities s e c ≠ noSolutionOutput) :
    ((generate_schedule activities s e c).flatMap
      (fun kv => kv.2.activityList)).Nodup := by
  rcases generate_schedule_form activities s e c with h | h
  · exact absurd h hns
  · obtain ⟨g, D, m, _, _, _, _, hout, hnodup, _⟩ := h
    rw [hout, List.flatMap_map]
    simpa [Val.activityList] using hnodup

/-- Witness for C3 at a concrete produced schedule. -/
theorem c3_no_duplicate_witness :
    generate_schedule [actMuseum, actLunch, actPark] 0 0 ⟨none, none⟩ ≠
      noSolutionOutput ∧
    ((generate_schedule [actMuseum, actLunch, actPark] 0 0 ⟨none, none⟩).flatMap
      (fun kv => kv.2.activityList)).Nodup :=
  ⟨by decide, c3_no_duplicate_activities [actMuseum, actLunch, actPark] 0 0
    ⟨none, none⟩ (by decide)⟩

/-- Claim C4: in every produced schedule, every activity whose category
is food sits at a per-day 1-based slot index at least the configured
food_after_slot (default 1): position i of a day list is per-day slot
i + 1, and the bound holds at it.  The index is the slot within the day,
not a global one — the statement quantifies per day entry. -/
theorem c4_food_after_slot_respected (activities : List Activity) (s e : Int)
    (c : ConstraintsDict)
    (hns : generate_schedule activities s e c ≠ noSolutionOutput)
    (kv : String × Val) (hkv : kv ∈ generate_schedule activities s e c)
    (l : List Activity) (hl : kv.2 = Val.acts l)
    (i : Nat) (hi : i < l.length)
    (hcat : (l.get ⟨i, hi⟩).category = some "food") :
    c.food_after_slot.getD 1 ≤ (i + 1 : Int) := by
  rcases generate_schedule_form activities s e c with h | h
  · exact absurd h hns
  · obtain ⟨g, D, m, _, _, _, _, hout, _, hfood⟩ := h
    rw [hout] at hkv
    rcases List.mem_map.mp hkv with ⟨d, hd, hkveq⟩
    have hl2 : l = (List.range m).map (g d) := by
      have h2 := hl
      rw [← hkveq] at h2
      simpa using h2.symm
    subst hl2
    have him : i < m := by simpa using hi
    have hget : ((List.range m).map (g d)).get ⟨i, hi⟩ = g d i := by
      simp [List.get_eq_getElem]
    rw [hget] at hcat
    exact hfood d i (List.mem_range.mp hd) him hcat

/-- Witness for C4 at a concrete produced schedule: the food activity
sits at slot 2 of day 1 under food_after_slot = 2. -/
theorem c4_food_after_slot_witness :
    generate_schedule [actMuseum, actLunch, actPark] 0 0 ⟨some 3, some 2⟩ ≠
      noSolutionOutput ∧
    (ConstraintsDict.mk (some 3) (some 2)).food_after_slot.getD 1 ≤
      ((1 : Nat) + 1 : Int) :=
  ⟨by decide, c4_food_after_slot_respected [actMuseum, actLunch, actPark] 0 0
    ⟨some 3, some 2⟩ (by decide)
    ("Day1", Val.acts [actMuseum, actLunch, actPark]) (by decide)
    [actMuseum, actLunch, actPark] rfl 1 (by decide) (by decide)⟩

/-- Claim C5: generate_schedule returns either the no-solution dict or a
complete schedule, never a partial one: a produced schedule has exactly
(end_date - start_date) + 1 day keys and every day holds exactly — in
particular at most — max_per_day activities, one per generated slot. -/
theorem c5_complete_or_no_solution (activities : List Activity) (s e : Int)
    (c : ConstraintsDict) :
    generate_schedule activities s e c = noSolutionOutput ∨
    (((generate_schedule activities s e c).length : Int) = e - s + 1 ∧
      ∀ kv ∈ generate_schedule activities s e c, ∃ l, kv.2 = Val.acts l ∧
        (l.length : Int) = c.max_per_day.getD 3 ∧
        (l.length : Int) ≤ c.max_per_day.getD 3) := by
  rcases generate_schedule_form activities s e c with h | h
  · exact Or.inl h
  · right
    obtain ⟨g, D, m, hD, hm, hDpos, hmpos, hout, _, _⟩ := h
    constructor
    · rw [hout]
      simp only [List.length_map, List.length_range]
      omega
    · intro kv hkv
      rw [hout] at hkv
      rcases List.mem_map.mp hkv with ⟨d, _, hkveq⟩
      refine ⟨(List.range m).map (g d), ?_, ?_, ?_⟩
      · rw [← hkveq]
      · simp only [List.length_map, List.length_range]
        omega
      · simp only [List.length_map, List.length_range]
        omega

/-- Claim C8: exhausted search yields the first-class no-solution dict —
data, not an exception (the embedding is a total function); it is not an
empty mapping, it carries the message entry, and no schedule the engine
can produce carries the message key, so every caller can tell the two
apart. -/
theorem c8_no_solution_first_class (activities : List Activity) (s e : Int)
    (c : ConstraintsDict) :
    ((schedCSP activities s e c).backtrack
        ((schedCSP activities s e c).vars.length + 1) [] = none →
      generate_schedule activities s e c = noSolutionOutput) ∧
    noSolutionOutput ≠ [] ∧
    ("message", Val.msg "No valid schedule found for given constraints")
      ∈ noSolutionOutput ∧
    (generate_schedule activities s e c ≠ noSolutionOutput →
      "message" ∉ (generate_schedule activities s e c).map Prod.fst) := by
  refine ⟨?_, by simp [noSolutionOutput], by simp [noSolutionOutput], ?_⟩
  · intro hb
    rw [generate_schedule_def, hb]
  · intro hns hmem
    rcases generate_schedule_form activities s e c with h | h
    · exact hns h
    · obtain ⟨g, D, m, _, _, _, _, hout, _, _⟩ := h
      rw [hout, List.map_map] at hmem
      rcases List.mem_map.mp hmem with ⟨d, _, hdk⟩
      exact dayKey_ne_message (d + 1) hdk

/-- Witness for C8: a concrete exhausted search returns the no-solution
dict, and a concrete produced schedule has no message key. -/
theorem c8_no_solution_witness :
    generate_schedule [actMuseum, actLunch, actPark] 0 1 ⟨none, none⟩ =
      noSolutionOutput ∧
    "message" ∉ (generate_schedule [actMuseum, actLunch, actPark] 0 0
      ⟨none, none⟩).map Prod.fst :=
  ⟨(c8_no_solution_first_class [actMuseum, actLunch, actPark] 0 1
      ⟨none, none⟩).1 (by decide),
    (c8_no_solution_first_class [actMuseum, actLunch, actPark] 0 0
      ⟨none, none⟩).2.2.2 (by decide)⟩

/-- Claim C7 counterexample: the formatting loop does not sort by slot;
it relies on the iteration (insertion) order of the assignment dict.
Two association lists holding the same variable-to-activity mapping
(they are permutations of one another) format differently: under the
reversed insertion order the slot-2 activity precedes the slot-1
activity inside the day list, so the slot ordering of the output does
depend on the assignment mapping preserving insertion order. -/
theorem c7_formatting_depends_on_insertion_order :
    ([((⟨1, 1⟩ : Var), actMuseum), ((⟨1, 2⟩ : Var), actLunch)] : Asg).Perm
      [((⟨1, 2⟩ : Var), actLunch), ((⟨1, 1⟩ : Var), actMuseum)] ∧
    formatDays [((⟨1, 1⟩ : Var), actMuseum), ((⟨1, 2⟩ : Var), actLunch)] =
      [(dayKey 1, [actMuseum, actLunch])] ∧
    formatDays [((⟨1, 2⟩ : Var), actLunch), ((⟨1, 1⟩ : Var), actMuseum)] =
      [(dayKey 1, [actLunch, actMuseum])] ∧
    actMuseum ≠ actLunch := by
  refine ⟨by decide, by decide, by decide, by decide⟩

/-- Claim C7 as amended: in every produced schedule each day's activity
sequence is ordered by ascending slot index — position i of a day list
holds exactly the activity the complete assignment gives to per-day slot
i + 1.  The hypotheses supply the complete assignment r the output was
formatted from (generate_schedule_cases proves such an r exists whenever
the output is not the no-solution dict); the ordering is a consequence
of the assignment being built and iterated in insertion order, not of
any sorting performed by the formatting step. -/
theorem c7_day_lists_in_slot_order (activities : List Activity) (s e : Int)
    (c : ConstraintsDict) (r : Asg)
    (hkeys : r.map Prod.fst = mkVariables (e - s + 1) (c.max_per_day.getD 3))
    (hout : generate_schedule activities s e c =
      (formatDays r).map (fun p => (p.1, Val.acts p.2)))
    (d : Nat) (l : List Activity)
    (hmem : (dayKey d, Val.acts l) ∈ generate_schedule activities s e c)
    (i : Nat) (hi : i < l.length) :
    lookupVar r ⟨d, i + 1⟩ = some (l.get ⟨i, hi⟩) := by
  obtain ⟨g, hg⟩ := exists_g_of_keys r (e - s + 1) (c.max_per_day.getD 3) hkeys
  by_cases hm0 : (c.max_per_day.getD 3).toNat = 0
  · rw [hm0] at hg
    simp only [List.range_zero, List.map_nil] at hg
    have hr : r = [] := by
      rw [hg]
      simp
    rw [hr] at hout
    rw [hout] at hmem
    simp [formatDays] at hmem
  · have hm : 0 < (c.max_per_day.getD 3).toNat := by omega
    have hform := formatDays_flatMap (e - s + 1).toNat (c.max_per_day.getD 3).toNat
      hm g
    rw [hout, hg, hform, List.map_map] at hmem
    rcases List.mem_map.mp hmem with ⟨d0, hd0, hkveq⟩
    simp only [Function.comp] at hkveq
    have hdk : dayKey (d0 + 1) = dayKey d := congrArg Prod.fst hkveq
    have hdd : d = d0 + 1 := (dayKey_injective hdk).symm
    have hll : (List.range (c.max_per_day.getD 3).toNat).map (g d0) = l := by
      have h2 := congrArg Prod.snd hkveq
      simpa using h2
    have him : i < (c.max_per_day.getD 3).toNat := by
      rw [← hll] at hi
      simpa using hi
    have hget : l.get ⟨i, hi⟩ = g d0 i := by
      rw [List.get_eq_getElem]
      have := hll
      subst this
      simp
    rw [hget, hdd]
    apply lookupVar_eq_of_mem r ⟨d0 + 1, i + 1⟩ (g d0 i) ?_ ?_
    · rw [hkeys]
      exact mkVariables_nodup _ _
    · rw [hg]
      exact List.mem_flatMap.mpr ⟨d0, List.mem_range.mpr (List.mem_range.mp hd0),
        List.mem_map.mpr ⟨i, List.mem_range.mpr him, rfl⟩⟩

/-- Witness for the amended C7 at a concrete produced schedule: position
1 of the Day1 list is the activity assigned to slot 2. -/
theorem c7_day_lists_witness :
    lookupVar [((⟨1, 1⟩ : Var), actMuseum), ((⟨1, 2⟩ : Var), actLunch),
        ((⟨1, 3⟩ : Var), actPark)] ⟨1, 1 + 1⟩ =
      some ([actMuseum, actLunch, actPark].get ⟨1, by decide⟩) :=
  c7_day_lists_in_slot_order [actMuseum, actLunch, actPark] 0 0 ⟨none, none⟩
    [((⟨1, 1⟩ : Var), actMuseum), ((⟨1, 2⟩ : Var), actLunch),
      ((⟨1, 3⟩ : Var), actPark)]
    (by decide) (by decide) 1 [actMuseum, actLunch, actPark] (by decide) 1
    (by decide)
